import Mathlib

/-!
A verification development for the `autoscout` repository's core module
`src/utils/visualization_utils.py`: the column-normalization, code-safety,
auto-repair, sandboxed-execution and code-block-extraction pipeline.

Strings are embedded as `List Char` (`Str`).  Python's machinery that lives
outside the repository is modelled as explicit parameters:
* `autopep8.fix_code` (an external formatting library) is a parameter
  `fmt : Str → Except Str Str`, whose `.error` branch models the library
  raising an exception (the source wraps the call in `try/except`);
* the dynamic `exec(...)` + `plt.savefig(...)` block of
  `execute_code_safely` is a parameter `run : Str → DataFrame → Except ExecErr Buffer`,
  whose `.error` branch models a runtime exception carrying `str(e)` and
  `traceback.format_exc()`.
Everything else is translated directly from the Python source.
-/

set_option autoImplicit false
set_option maxRecDepth 8192

namespace AutoScout

/-- Strings are modelled as lists of characters. -/
abbrev Str := List Char

/-- Shorthand turning a Lean string literal into the `Str` model. -/
def S (s : String) : Str := s.data

/-- A cell of a dataframe: `none` models a pandas null value. -/
abbrev Cell := Option Str

/-- A pandas `DataFrame` is modelled as an ordered association list from
column names to column value lists (pandas column labels are unique here,
and `df[c] = v` on a fresh label `c` appends a new column at the end). -/
abbrev DataFrame := List (Str × List Cell)

/-- The ordered list of column names of a dataframe (`df.columns`). -/
def keys (df : DataFrame) : List Str := df.map Prod.fst

/-- `df[n]` as a lookup: the first column named `n`, if any. -/
def getCol (df : DataFrame) (n : Str) : Option (List Cell) :=
  (df.find? (fun pr => pr.1 == n)).map Prod.snd

/-- `df[n]` when `n` is known to be present (defaulting to `[]` otherwise). -/
def getColD (df : DataFrame) (n : Str) : List Cell :=
  (getCol df n).getD []

end AutoScout

namespace AutoScout

/-- ASCII lower-casing of one character, modelling `re.IGNORECASE` /
`str.lower` on the ASCII patterns used by the source. -/
def lowerChar (c : Char) : Char := c.toLower

/-- Lower-case a whole string. -/
def lowerStr (s : Str) : Str := s.map lowerChar

/-- The characters matched by the regex class `\s` (ASCII part). -/
def pySpace (c : Char) : Bool :=
  c = ' ' || c = '\t' || c = '\n' || c = '\r' || c = '\x0b' || c = '\x0c'

/-- One forbidden pattern of `DANGEROUS_PATTERNS`: either a literal
(case-insensitive) substring such as `open\(`, or one of the three
`import\s+<module>` regexes.  `src` is the regex source text interpolated
into the violation message; `tok`/`m` is the matched literal. -/
inductive Pat where
  | lit (src tok : Str)
  | imp (src m : Str)

/-- `\s+<m>`: at least one whitespace character, then the literal `m`. -/
def impSpaces (m : Str) : Str → Bool
  | [] => false
  | c :: rest => pySpace c && (m.isPrefixOf rest || impSpaces m rest)

/-- Does `import\s+<m>` match starting at the head of `s`? -/
def impHere (m : Str) (s : Str) : Bool :=
  (S "import").isPrefixOf s && impSpaces m (s.drop 6)

/-- Scan every start position of `lc` for `import\s+<m>`. -/
def scanImp (m : Str) : Str → Bool
  | [] => false
  | c :: rest => impHere m (c :: rest) || scanImp m rest

/-- `re.search(pattern, code, re.IGNORECASE)` for one forbidden pattern. -/
def pmatch (p : Pat) (code : Str) : Bool :=
  match p with
  | .lit _ tok => decide (tok <:+: lowerStr code)
  | .imp _ m => scanImp m (lowerStr code)

/-- The regex source text of a pattern (used in the violation message). -/
def patSrc (p : Pat) : Str :=
  match p with
  | .lit src _ => src
  | .imp src _ => src

/-- The fixed `DANGEROUS_PATTERNS` list of `visualization_utils.py`. -/
def DANGEROUS_PATTERNS : List Pat :=
  [ .imp (S "import\\s+os") (S "os")
  , .imp (S "import\\s+subprocess") (S "subprocess")
  , .imp (S "import\\s+sys") (S "sys")
  , .lit (S "open\\(") (S "open(")
  , .lit (S "eval\\(") (S "eval(")
  , .lit (S "exec\\(") (S "exec(")
  , .lit (S "__import__") (S "__import__")
  , .lit (S "globals\\(") (S "globals(")
  , .lit (S "locals\\(") (S "locals(")
  , .lit (S "compile\\(") (S "compile(")
  , .lit (S "file\\(") (S "file(")
  , .lit (S "input\\(") (S "input(")
  , .lit (S "raw_input\\(") (S "raw_input(")
  , .lit (S "help\\(") (S "help(")
  , .lit (S "vars\\(") (S "vars(")
  , .lit (S "dir\\(") (S "dir(")
  , .lit (S "type\\(") (S "type(")
  , .lit (S "getattr\\(") (S "getattr(")
  , .lit (S "setattr\\(") (S "setattr(")
  , .lit (S "delattr\\(") (S "delattr(")
  , .lit (S "hasattr\\(") (S "hasattr(")
  , .lit (S "property\\(") (S "property(")
  , .lit (S "super\\(") (S "super(")
  , .lit (S "staticmethod\\(") (S "staticmethod(")
  , .lit (S "classmethod\\(") (S "classmethod(")
  , .lit (S "issubclass\\(") (S "issubclass(")
  , .lit (S "isinstance\\(") (S "isinstance(")
  , .lit (S "callable\\(") (S "callable(")
  , .lit (S "hash\\(") (S "hash(")
  , .lit (S "id\\(") (S "id(")
  , .lit (S "len\\(") (S "len(")
  , .lit (S "abs\\(") (S "abs(")
  , .lit (S "all\\(") (S "all(")
  , .lit (S "any\\(") (S "any(")
  , .lit (S "bin\\(") (S "bin(")
  , .lit (S "bool\\(") (S "bool(")
  , .lit (S "chr\\(") (S "chr(")
  , .lit (S "complex\\(") (S "complex(")
  , .lit (S "dict\\(") (S "dict(")
  , .lit (S "divmod\\(") (S "divmod(")
  , .lit (S "enumerate\\(") (S "enumerate(")
  , .lit (S "filter\\(") (S "filter(")
  , .lit (S "float\\(") (S "float(")
  , .lit (S "format\\(") (S "format(")
  , .lit (S "frozenset\\(") (S "frozenset(")
  , .lit (S "hex\\(") (S "hex(")
  , .lit (S "int\\(") (S "int(")
  , .lit (S "list\\(") (S "list(")
  , .lit (S "map\\(") (S "map(")
  , .lit (S "max\\(") (S "max(")
  , .lit (S "min\\(") (S "min(")
  , .lit (S "next\\(") (S "next(")
  , .lit (S "oct\\(") (S "oct(")
  , .lit (S "ord\\(") (S "ord(")
  , .lit (S "pow\\(") (S "pow(")
  , .lit (S "print\\(") (S "print(")
  , .lit (S "range\\(") (S "range(")
  , .lit (S "repr\\(") (S "repr(")
  , .lit (S "reversed\\(") (S "reversed(")
  , .lit (S "round\\(") (S "round(")
  , .lit (S "set\\(") (S "set(")
  , .lit (S "slice\\(") (S "slice(")
  , .lit (S "sorted\\(") (S "sorted(")
  , .lit (S "str\\(") (S "str(")
  , .lit (S "sum\\(") (S "sum(")
  , .lit (S "tuple\\(") (S "tuple(")
  , .lit (S "zip\\(") (S "zip(")
  ]

/-- The violation message appended for a matched pattern. -/
def blockedEntry (p : Pat) : Str :=
  S "Blocked dangerous pattern: " ++ patSrc p

/-- `check_code_safety`: scan the code against every forbidden pattern,
collecting one violation message per match; safe iff no message. -/
def check_code_safety (code : Str) : Bool × List Str :=
  let issues := DANGEROUS_PATTERNS.foldl
    (fun acc p => if pmatch p code then acc ++ [blockedEntry p] else acc) []
  (issues.length == 0, issues)

end AutoScout

namespace AutoScout

/-- The fixed `COLUMN_ALIASES` mapping, in the source's insertion order
(Python dict iteration order). -/
def COLUMN_ALIASES : List (Str × Str) :=
  [ (S "Squad", S "Team")
  , (S "Team Name", S "Team")
  , (S "Squad Name", S "Team")
  , (S "Club", S "Team")
  , (S "Club Name", S "Team")
  , (S "Player Name", S "Player")
  , (S "Player_Name", S "Player")
  , (S "Name", S "Player")
  , (S "Full Name", S "Player")
  , (S "playerName", S "Player")
  , (S "Position", S "Pos")
  , (S "Player Position", S "Pos")
  , (S "Role", S "Pos")
  , (S "X", S "x")
  , (S "Y", S "y")
  , (S "End X", S "end_x")
  , (S "End Y", S "end_y")
  , (S "Start X", S "start_x")
  , (S "Start Y", S "start_y")
  , (S "Event", S "Event Type")
  , (S "Action", S "Event Type")
  , (S "Type", S "Event Type")
  , (S "Match", S "Match ID")
  , (S "Game", S "Match ID")
  , (S "Fixture", S "Match ID")
  ]

/-- The log entry `f"Column mapping: '{alias}' → '{canonical}'"`. -/
def mappingEntry (al can : Str) : Str :=
  S "Column mapping: '" ++ al ++ S "' → '" ++ can ++ S "'"

/-- The loop body of `normalize_columns`: fold the alias map over the
working copy, appending a shadow canonical column (and a log entry)
whenever the alias is present and the canonical is not. -/
def normApply : List (Str × Str) → DataFrame → DataFrame × List Str
  | [], df => (df, [])
  | (al, can) :: rest, df =>
    if al ∈ keys df ∧ can ∉ keys df then
      let res := normApply rest (df ++ [(can, getColD df al)])
      (res.1, mappingEntry al can :: res.2)
    else normApply rest df

/-- The mutable state of a `VisualizationUtils` instance. -/
structure VisualizationUtils where
  df : DataFrame
  original_columns : List Str
  corrections_log : List Str

/-- `VisualizationUtils.__init__`. -/
def VisualizationUtils.init (df : DataFrame) : VisualizationUtils :=
  { df := df, original_columns := (keys df).dedup, corrections_log := [] }

/-- `normalize_columns`: builds the normalized copy of `self.df` and
appends the mapping log entries to `self.corrections_log`; `self.df`
itself is left untouched (the source works on `self.df.copy()`). -/
def VisualizationUtils.normalize_columns (st : VisualizationUtils) :
    DataFrame × VisualizationUtils :=
  let res := normApply COLUMN_ALIASES st.df
  (res.1, { st with corrections_log := st.corrections_log ++ res.2 })

/-- `"\n".join` / `"; ".join` and friends. -/
def joinSep (sep : Str) : List Str → Str
  | [] => []
  | [x] => x
  | x :: xs => x ++ sep ++ joinSep sep xs

/-- `get_available_columns_info`, reading `self.df` (never the normalized
copy).  The pandas dtype rendering and the Python list rendering of the
first three non-null sample values are external formatting, abstracted as
the parameters `dtypeOf` and `reprL`. -/
def VisualizationUtils.get_available_columns_info
    (dtypeOf : List Cell → Str) (reprL : List Str → Str)
    (st : VisualizationUtils) : Str :=
  joinSep (S "\n")
    (st.df.map (fun pr =>
      S "- " ++ pr.1 ++ S " (" ++ dtypeOf pr.2 ++ S "): "
        ++ reprL ((pr.2.filterMap id).take 3)))

end AutoScout

namespace AutoScout

/-- The fixed `replacements` table of `auto_fix_plot_code`, in source
(dict insertion) order.  Note the last entry maps `df.plot()` to itself. -/
def replacements : List (Str × Str) :=
  [ (S "mplsoccer()", S "Pitch()")
  , (S "mplsoccer.Pitch()", S "Pitch()")
  , (S "from mplsoccer import *", S "from mplsoccer import Pitch")
  , (S "plt.show()()", S "plt.show()")
  , (S "plt.plt.", S "plt.")
  , (S "plt..", S "plt.")
  , (S "df.plot()", S "df.plot()")
  ]

/-- The log entry `f"Code fix: '{wrong}' → '{right}'"`. -/
def codeFixEntry (w r : Str) : Str :=
  S "Code fix: '" ++ w ++ S "' → '" ++ r ++ S "'"

/-- One fuel-indexed step list of Python's `str.replace(p, r)`:
replace every non-overlapping occurrence of `p`, scanning left to right.
The fuel only bounds the recursion; with fuel `≥ length s` it is never
exhausted (each step consumes at least one character). -/
def replaceAllF (p r : Str) : Nat → Str → Str
  | _, [] => []
  | 0, s => s
  | fuel + 1, c :: rest =>
    if p.isPrefixOf (c :: rest) then r ++ replaceAllF p r fuel ((c :: rest).drop p.length)
    else c :: replaceAllF p r fuel rest

/-- Python's `s.replace(p, r)` (for the nonempty patterns the source uses). -/
def replaceAll (p r s : Str) : Str := replaceAllF p r (s.length + 1) s

/-- The `for wrong, right in replacements.items()` loop: apply each
replacement whose key occurs in the current code, logging a fix entry. -/
def applyReplacements : List (Str × Str) → Str × List Str → Str × List Str
  | [], st => st
  | (w, r) :: rest, (code, corr) =>
    if w <:+: code then
      applyReplacements rest (replaceAll w r code, corr ++ [codeFixEntry w r])
    else applyReplacements rest (code, corr)

/-- Is `c` one of the quote characters of the regex class `['\"]`? -/
def isQuote (c : Char) : Bool := c = Char.ofNat 39 || c = Char.ofNat 34

/-- Lazy search for the close of `df\[['\"](.*?)['\"]\]`: the smallest
`e ≥ start` such that `s[e]` is a quote and `s[e+1] = ']'`, where every
character absorbed by the lazy `.*?` on the way must not be a newline
(the pattern is compiled without `re.DOTALL`). -/
def findRefClose (s : Str) : Nat → Nat → Option Nat
  | 0, _ => none
  | fuel + 1, e =>
    match s.get? e with
    | none => none
    | some c =>
      if isQuote c ∧ s.get? (e + 1) = some ']' then some e
      else if c = '\n' then none
      else findRefClose s fuel (e + 1)

/-- `re.findall(r"df\[['\"](.*?)['\"]\]", code)`: scan every start
position, emitting the captured column names of non-overlapping leftmost
matches.  Fuel `≥ length s + 1` is never exhausted. -/
def findRefsF (s : Str) : Nat → Nat → List Str
  | 0, _ => []
  | fuel + 1, i =>
    if i ≥ s.length then []
    else if (S "df[").isPrefixOf (s.drop i) ∧ (s.get? (i + 3)).any isQuote then
      match findRefClose s (s.length + 1) (i + 4) with
      | some e => ((s.drop (i + 4)).take (e - (i + 4))) :: findRefsF s fuel (e + 2)
      | none => findRefsF s fuel (i + 1)
    else findRefsF s fuel (i + 1)

/-- All column names referenced as `df['...']` / `df["..."]` in `code`. -/
def findRefs (code : Str) : List Str := findRefsF code (code.length + 1) 0

/-- Length of the common run of `a`/`b` starting at indices `i`/`j`,
clipped to the ranges `[.., ahi)` and `[.., bhi)`. -/
def runLenF (a b : Str) (ahi bhi : Nat) : Nat → Nat → Nat → Nat
  | 0, _, _ => 0
  | fuel + 1, i, j =>
    if i < ahi ∧ j < bhi ∧ (a.get? i).isSome ∧ a.get? i = b.get? j then
      runLenF a b ahi bhi fuel (i + 1) (j + 1) + 1
    else 0

/-- `SequenceMatcher.find_longest_match` on the ranges `[alo, ahi)` of `a`
and `[blo, bhi)` of `b` (no junk, autojunk inoperative on short strings):
the longest matching block, ties broken towards the smallest start in `a`,
then the smallest start in `b`. -/
def findLongest (a b : Str) (alo ahi blo bhi : Nat) : Nat × Nat × Nat :=
  (List.range' alo (ahi - alo)).foldl
    (fun best i =>
      (List.range' blo (bhi - blo)).foldl
        (fun best j =>
          let k := runLenF a b ahi bhi ahi i j
          if k > best.2.2 then (i, j, k) else best)
        best)
    (alo, blo, 0)

/-- Total size of `SequenceMatcher.get_matching_blocks`: recursively split
around the longest matching block.  Fuel `≥ ahi - alo + 1` is never
exhausted (each recursive range is strictly shorter). -/
def matchingTotalF (a b : Str) : Nat → Nat → Nat → Nat → Nat → Nat
  | 0, _, _, _, _ => 0
  | fuel + 1, alo, ahi, blo, bhi =>
    let ijk := findLongest a b alo ahi blo bhi
    if ijk.2.2 = 0 then 0
    else
      matchingTotalF a b fuel alo ijk.1 blo ijk.2.1 + ijk.2.2 +
        matchingTotalF a b fuel (ijk.1 + ijk.2.2) ahi (ijk.2.1 + ijk.2.2) bhi

/-- The total number of matched characters `M` entering
`SequenceMatcher(None, a, b).ratio() = 2*M/(|a|+|b|)`. -/
def matchingTotal (a b : Str) : Nat :=
  matchingTotalF a b (a.length + 1) 0 a.length 0 b.length

/-- `ratio(x, word) ≥ 0.6`, i.e. `2*M/(|x|+|word|) ≥ 3/5`, division-free. -/
def cutoffOk (x word : Str) : Bool :=
  decide (10 * matchingTotal x word ≥ 3 * (x.length + word.length))

/-- Python string comparison (lexicographic by code point). -/
def strLtb : Str → Str → Bool
  | [], [] => false
  | [], _ :: _ => true
  | _ :: _, [] => false
  | a :: xs, b :: ys =>
    if a.toNat < b.toNat then true
    else if b.toNat < a.toNat then false
    else strLtb xs ys

/-- Is the scored candidate `(ratio x, x)` strictly greater than
`(ratio best, best)`?  Ratios are compared by cross-multiplication;
`heapq.nlargest` breaks ratio ties by comparing the strings themselves. -/
def betterCand (word x best : Str) : Bool :=
  let mx := matchingTotal x word
  let mb := matchingTotal best word
  let tx := x.length + word.length
  let tb := best.length + word.length
  if mx * tb > mb * tx then true
  else if mx * tb = mb * tx then strLtb best x
  else false

/-- `difflib.get_close_matches(word, cols, n=1, cutoff=0.6)`: the
candidates whose ratio clears the cutoff, reduced to the single largest
`(ratio, candidate)` pair (the quick-ratio prefilters of the library are
upper bounds of `ratio` and cannot change the outcome). -/
def getCloseMatches (word : Str) (cols : List Str) : List Str :=
  match cols.filter (fun x => cutoffOk x word) with
  | [] => []
  | c :: cs => [cs.foldl (fun best x => if betterCand word x best then x else best) c]

/-- The log entry for a repaired column reference. -/
def colFixEntry (col m : Str) : Str :=
  S "Column fix: '" ++ col ++ S "' → '" ++ m ++ S "'"

/-- The log entry for a reference with no close match. -/
def warnEntry (col : Str) : Str :=
  S "Warning: Column '" ++ col ++ S "' not found and no close match available"

/-- Does `df\[['\"]<col>['\"]\]` (with `col` literal) match at the head? -/
def refAt (col : Str) (s : Str) : Bool :=
  (S "df[").isPrefixOf s && (s.get? 3).any isQuote && col.isPrefixOf (s.drop 4)
    && (s.get? (4 + col.length)).any isQuote && s.get? (5 + col.length) == some ']'

/-- `re.sub(rf"df\[['\"]{re.escape(col)}['\"]\]", f"df['{m}']", s)`:
replace every non-overlapping leftmost occurrence.  The whole matched
pattern spans `col.length + 6` characters. -/
def replaceRefF (col m : Str) : Nat → Str → Str
  | _, [] => []
  | 0, s => s
  | fuel + 1, c :: rest =>
    if refAt col (c :: rest) then
      S "df['" ++ m ++ S "']" ++ replaceRefF col m fuel ((c :: rest).drop (col.length + 6))
    else c :: replaceRefF col m fuel rest

/-- The executable wrapper of `replaceRefF`. -/
def replaceRef (col m s : Str) : Str := replaceRefF col m (s.length + 1) s

/-- The `for col in matches` loop of `auto_fix_plot_code`: for each
referenced name missing from the real column set, rewrite it to the close
match if one clears the cutoff, otherwise log a warning. -/
def colFixLoop (cols : List Str) : List Str → Str × List Str → Str × List Str
  | [], st => st
  | col :: rest, (code, corr) =>
    if col ∈ cols then colFixLoop cols rest (code, corr)
    else
      match getCloseMatches col cols with
      | m :: _ => colFixLoop cols rest (replaceRef col m code, corr ++ [colFixEntry col m])
      | [] => colFixLoop cols rest (code, corr ++ [warnEntry col])

/-- The state of `auto_fix_plot_code` after the fixed replacements table
has been applied to the incoming code (`fixed_code`, `corrections`). -/
def replStage (code : Str) : Str × List Str :=
  applyReplacements replacements (code, [])

/-- The state of `auto_fix_plot_code` after the column-reference repair
loop has additionally been run against the table's real columns. -/
def colStage (df : DataFrame) (code : Str) : Str × List Str :=
  colFixLoop (keys df) (findRefs (replStage code).1) (replStage code)

/-- `auto_fix_plot_code`: fixed textual replacements, then fuzzy repair of
column references against `self.df.columns`, then the `autopep8` pass.
`fmt` models the external `autopep8.fix_code`; its `.error e` branch is
the library raising an exception with `str(e) = e`, which the source
catches, keeping the pre-reformat code. -/
def auto_fix_plot_code (fmt : Str → Except Str Str) (df : DataFrame)
    (code : Str) : Str × List Str :=
  match fmt (colStage df code).1 with
  | .ok c => (c, (colStage df code).2 ++ [S "Code auto-formatted with autopep8"])
  | .error e => ((colStage df code).1, (colStage df code).2 ++ [S "Auto-formatting failed: " ++ e])

end AutoScout

namespace AutoScout

/-- The PNG buffer captured by `plt.savefig`, as raw bytes. -/
abbrev Buffer := List Nat

/-- A Python runtime exception: `str(e)` and `traceback.format_exc()`. -/
structure ExecErr where
  msg : Str
  tb : Str

/-- The outcome of the `try` block of `execute_code_safely` — the dynamic
`exec(fixed_code, safe_globals)` plus the `plt.savefig`/`BytesIO` capture.
It is external dynamic behaviour, modelled as a parameter receiving the
repaired code and the dataframe bound to `df` in `safe_globals`. -/
abbrev Runner := Str → DataFrame → Except ExecErr Buffer

/-- An `Execution Result`: success flag, message, optional image buffer. -/
abbrev ExecResult := Bool × Str × Option Buffer

/-- `execute_code_safely`: gate the code, bail out with the violation list
if unsafe; otherwise repair it, log the corrections, and run it in the
restricted namespace, converting any exception into a failure result. -/
def execute_code_safely (run : Runner) (fmt : Str → Except Str Str)
    (st : VisualizationUtils) (code : Str) : ExecResult × VisualizationUtils :=
  let gate := check_code_safety code
  if gate.1 = false then
    ((false, S "Code blocked for security reasons: " ++ joinSep (S "; ") gate.2, none), st)
  else
    let fix := auto_fix_plot_code fmt st.df code
    let st' := { st with corrections_log := st.corrections_log ++ fix.2 }
    match run fix.1 st.df with
    | .ok buf =>
      ((true, S "Code executed successfully. Corrections made: "
          ++ (toString fix.2.length).data, some buf), st')
    | .error e =>
      ((false, S "Execution error: " ++ e.msg ++ S "\nTraceback: " ++ e.tb, none), st')

end AutoScout

namespace AutoScout

/-- The literal section marker `'## SUGGESTED VISUALIZATIONS'`. -/
def markerS : Str := S "## SUGGESTED VISUALIZATIONS"

/-- Python `text.find(m)`: the smallest index where `m` occurs, if any. -/
def strFindF (m s : Str) : Nat → Nat → Option Nat
  | 0, _ => none
  | fuel + 1, i =>
    if m.isPrefixOf (s.drop i) then some i
    else if i < s.length then strFindF m s fuel (i + 1)
    else none

/-- The executable wrapper of `strFindF`. -/
def strFind (m s : Str) : Option Nat := strFindF m s (s.length + 1) 0

/-- Lazy search for the closing fence: the smallest `e ≥ start` where
three backticks occur (the pattern uses `re.DOTALL`, so the lazy `.*?`
absorbs any character, newlines included). -/
def fenceClose (s : Str) (fence : Str) : Nat → Nat → Option Nat
  | 0, _ => none
  | fuel + 1, e =>
    if e ≥ s.length then none
    else if fence.isPrefixOf (s.drop e) then some e
    else fenceClose s fence fuel (e + 1)

/-- `re.findall(r"(three backticks)python(.*?)(three backticks)", s, re.DOTALL)`:
the contents of the python-tagged fenced blocks, leftmost non-overlapping. -/
def findFencedF (s : Str) (opener fence : Str) : Nat → Nat → List Str
  | 0, _ => []
  | fuel + 1, i =>
    if i ≥ s.length then []
    else if opener.isPrefixOf (s.drop i) then
      match fenceClose s fence (s.length + 1) (i + opener.length) with
      | some e =>
        ((s.drop (i + opener.length)).take (e - (i + opener.length)))
          :: findFencedF s opener fence fuel (e + fence.length)
      | none => []
    else findFencedF s opener fence fuel (i + 1)

/-- The opening fence tag of a python code block. -/
def pyOpener : Str := '`' :: '`' :: '`' :: S "python"

/-- A bare three-backtick fence. -/
def fence3 : Str := ['`', '`', '`']

/-- All python-tagged fenced code blocks of `s`, in order of appearance. -/
def findFenced (s : Str) : List Str := findFencedF s pyOpener fence3 (s.length + 1) 0

/-- Python `str.strip()` (ASCII whitespace). -/
def pyStrip (s : Str) : Str :=
  ((s.dropWhile pySpace).reverse.dropWhile pySpace).reverse

/-- Strip each extracted block and drop the whitespace-only ones
(`[block.strip() for block in code_blocks if block.strip()]`). -/
def stripBlocks (blocks : List Str) : List Str :=
  (blocks.map pyStrip).filter (fun b => b ≠ [])

/-- `extract_code_blocks`: with the marker present, scan only the text
from the marker on; otherwise fall back to scanning the whole text. -/
def extract_code_blocks (text : Str) : List Str :=
  match strFind markerS text with
  | none => stripBlocks (findFenced text)
  | some i => stripBlocks (findFenced (text.drop i))

end AutoScout

namespace AutoScout

/-- The first alias of the map `A` whose canonical is `can` and whose
alias column is present in `df` — the alias whose values the shadow
canonical column actually receives. -/
def firstPresentAlias (A : List (Str × Str)) (df : DataFrame) (can : Str) : Option Str :=
  (A.find? (fun pr => pr.2 == can && decide (pr.1 ∈ keys df))).map Prod.fst

/-- `NoCross p t`: no occurrence of `p` can overlap an occurrence of `t`
in any string — neither contains the other, no nonempty proper suffix of
`t` is a prefix of `p`, and no nonempty proper suffix of `p` is a prefix
of `t`.  Under this condition `replaceAll p r` preserves occurrences of `t`. -/
def NoCross (p t : Str) : Prop :=
  ¬ (p <:+: t) ∧ ¬ (t <:+: p) ∧
    (∀ i, i < t.length → 0 < i → ¬ (t.drop i <+: p)) ∧
    (∀ i, i < p.length → 0 < i → ¬ (p.drop i <+: t))

instance (p t : Str) : Decidable (NoCross p t) := by
  unfold NoCross; infer_instance

/-- A formatter that always succeeds without changing the code, used to
instantiate the `autopep8` parameter in concrete scenarios. -/
def okFmt : Str → Except Str Str := fun s => Except.ok s

/-- A table holding two aliases of `Team` with different values. -/
def dfSquadPair : DataFrame :=
  [(S "Squad", [some (S "a")]), (S "Team Name", [some (S "b")])]

/-- A table holding `Squad` and `Squad Name` with different values. -/
def dfSquadBoth : DataFrame :=
  [(S "Squad", [some (S "x")]), (S "Squad Name", [some (S "y")])]

/-- A table whose only Team alias is `Squad Name`. -/
def dfSquadName : DataFrame := [(S "Squad Name", [some (S "v")])]

/-- A table with the single column `Player`. -/
def dfPlayerOnly : DataFrame := [(S "Player", [])]

/-- A table with the columns `Player` and `Team`. -/
def dfPlayerTeam : DataFrame := [(S "Player", []), (S "Team", [])]

/-- Plot code referencing the misspelled column `Players` twice. -/
def codeTwoRefs : Str := S "df['Players'] df['Players']"

/-- Plot code referencing a column with no close match. -/
def codeZzz : Str := S "df['zzz']"

/-- A formatter that always raises, for exercising the `except` branch. -/
def errFmt : Str → Except Str Str := fun _ => Except.error (S "boom")

/-- A runner whose execution always succeeds with an empty buffer. -/
def okRun : Runner := fun _ _ => Except.ok []

/-- A runner whose execution always raises. -/
def errRun : Runner := fun _ _ => Except.error ⟨S "division by zero", S "Traceback text"⟩

end AutoScout

namespace AutoScout

/-- The violation-collecting fold of `check_code_safety` appends, onto its
accumulator, one entry per matched pattern in list order. -/
theorem safetyFold_eq (code : Str) :
    ∀ (l : List Pat) (acc : List Str),
      l.foldl (fun acc p => if pmatch p code then acc ++ [blockedEntry p] else acc) acc
        = acc ++ (l.filter (fun p => pmatch p code)).map blockedEntry := by
  intro l
  induction l with
  | nil => intro acc; simp
  | cons p rest ih =>
    intro acc
    by_cases h : pmatch p code = true
    · simp [List.foldl_cons, h, ih]
    · simp only [Bool.not_eq_true] at h
      simp [List.foldl_cons, h, ih]

/-- C1.  `check_code_safety` returns `safe = false` together with a
non-empty violation list iff at least one forbidden pattern matches the
code (case-insensitively); the violation list holds exactly one entry per
matched pattern, in the pattern list's order; and `safe = true` (with an
empty list, by the first conjunct) exactly when no pattern matches. -/
theorem claim_C1_check_code_safety (code : Str) :
    (check_code_safety code).2
        = (DANGEROUS_PATTERNS.filter (fun p => pmatch p code)).map blockedEntry
      ∧ ((check_code_safety code).1 = false ∧ (check_code_safety code).2 ≠ []
          ↔ ∃ p ∈ DANGEROUS_PATTERNS, pmatch p code = true)
      ∧ ((check_code_safety code).1 = true
          ↔ ∀ p ∈ DANGEROUS_PATTERNS, pmatch p code = false) := by
  have h2 : (check_code_safety code).2
      = (DANGEROUS_PATTERNS.filter (fun p => pmatch p code)).map blockedEntry := by
    simpa [check_code_safety] using safetyFold_eq code DANGEROUS_PATTERNS []
  have h1 : (check_code_safety code).1 = ((check_code_safety code).2.length == 0) := by
    simp [check_code_safety]
  have hex : (DANGEROUS_PATTERNS.filter (fun p => pmatch p code)) ≠ []
      ↔ ∃ p ∈ DANGEROUS_PATTERNS, pmatch p code = true := by
    constructor
    · intro hne
      obtain ⟨q, hq⟩ := List.exists_mem_of_ne_nil _ hne
      exact ⟨q, List.mem_of_mem_filter hq,
        List.of_mem_filter (p := fun p => pmatch p code) hq⟩
    · rintro ⟨p, hp, hmatch⟩
      exact List.ne_nil_of_mem (List.mem_filter.mpr ⟨hp, hmatch⟩)
  have hmapnil : (check_code_safety code).2 = []
      ↔ (DANGEROUS_PATTERNS.filter (fun p => pmatch p code)) = [] := by
    rw [h2, List.map_eq_nil_iff]
  refine ⟨h2, ?_, ?_⟩
  · rw [h1]
    constructor
    · rintro ⟨-, hne⟩
      exact hex.mp (fun hnil => hne (hmapnil.mpr hnil))
    · intro hmm
      have hne : (check_code_safety code).2 ≠ [] :=
        fun hnil => (hex.mpr hmm) (hmapnil.mp hnil)
      refine ⟨?_, hne⟩
      rw [Bool.eq_false_iff]
      intro hb
      exact hne (List.length_eq_zero.mp (beq_iff_eq.mp hb))
  · rw [h1]
    constructor
    · intro hb p hp
      have hnil : (DANGEROUS_PATTERNS.filter (fun p => pmatch p code)) = [] :=
        hmapnil.mp (List.length_eq_zero.mp (beq_iff_eq.mp hb))
      by_contra hne
      simp only [Bool.not_eq_false] at hne
      exact (hex.mpr ⟨p, hp, hne⟩) hnil
    · intro hall
      have hnil : (DANGEROUS_PATTERNS.filter (fun p => pmatch p code)) = [] := by
        by_contra hne
        obtain ⟨p, hp, hm⟩ := hex.mp hne
        exact absurd (hall p hp) (by simp [hm])
      have : (check_code_safety code).2 = [] := hmapnil.mpr hnil
      simp [this]

end AutoScout

namespace AutoScout

theorem keys_append_one (df : DataFrame) (pr : Str × List Cell) :
    keys (df ++ [pr]) = keys df ++ [pr.1] := by
  simp [keys]

theorem getCol_append_of_mem (df : DataFrame) (pr : Str × List Cell) (n : Str)
    (h : n ∈ keys df) : getCol (df ++ [pr]) n = getCol df n := by
  induction df with
  | nil => simp [keys] at h
  | cons hd rest ih =>
    by_cases he : hd.1 == n
    · simp [getCol, List.find?_cons, he]
    · have hn : n ∈ keys rest := by
        rcases List.mem_cons.mp h with h1 | h1
        · exact absurd (beq_iff_eq.mpr h1.symm) (by simpa using he)
        · exact h1
      have := ih hn
      simpa [getCol, List.find?_cons, he] using this

theorem getCol_append_self (df : DataFrame) (n : Str) (v : List Cell)
    (h : n ∉ keys df) : getCol (df ++ [(n, v)]) n = some v := by
  induction df with
  | nil => simp [getCol, List.find?_cons]
  | cons hd rest ih =>
    have hne : (hd.1 == n) = false := by
      rw [beq_eq_false_iff_ne]
      intro he
      exact h (by simp [keys, he])
    have hn : n ∉ keys rest := fun hm => h (by simp [keys] at hm ⊢; right; exact hm)
    have := ih hn
    simpa [getCol, List.find?_cons, hne] using this

theorem getCol_some_of_mem (df : DataFrame) (n : Str) (h : n ∈ keys df) :
    ∃ v, getCol df n = some v := by
  induction df with
  | nil => simp [keys] at h
  | cons hd rest ih =>
    by_cases he : hd.1 == n
    · exact ⟨hd.2, by simp [getCol, List.find?_cons, he]⟩
    · have hn : n ∈ keys rest := by
        rcases List.mem_cons.mp h with h1 | h1
        · exact absurd (beq_iff_eq.mpr h1.symm) (by simpa using he)
        · exact h1
      obtain ⟨v, hv⟩ := ih hn
      exact ⟨v, by simpa [getCol, List.find?_cons, he] using hv⟩

theorem mem_of_getCol_some (df : DataFrame) (n : Str) (v : List Cell)
    (h : getCol df n = some v) : n ∈ keys df := by
  induction df with
  | nil => simp [getCol] at h
  | cons hd rest ih =>
    by_cases he : hd.1 == n
    · exact List.mem_cons.mpr (Or.inl (beq_iff_eq.mp he).symm)
    · simp only [getCol, List.find?_cons, he] at h
      exact List.mem_cons.mpr (Or.inr (ih (by simpa [getCol] using h)))

/-- Existing columns are looked up unchanged in the normalized table. -/
theorem normApply_getCol_mem :
    ∀ (A : List (Str × Str)) (df : DataFrame) (n : Str), n ∈ keys df →
      getCol (normApply A df).1 n = getCol df n := by
  intro A
  induction A with
  | nil => intro df n _; rfl
  | cons p rest ih =>
    intro df n hn
    obtain ⟨al, can⟩ := p
    by_cases hg : al ∈ keys df ∧ can ∉ keys df
    · have hn' : n ∈ keys (df ++ [(can, getColD df al)]) := by
        rw [keys_append_one]; exact List.mem_append_left _ hn
      calc getCol (normApply ((al, can) :: rest) df).1 n
          = getCol (normApply rest (df ++ [(can, getColD df al)])).1 n := by
            simp [normApply, hg]
        _ = getCol (df ++ [(can, getColD df al)]) n := ih _ n hn'
        _ = getCol df n := getCol_append_of_mem df _ n hn
    · calc getCol (normApply ((al, can) :: rest) df).1 n
          = getCol (normApply rest df).1 n := by simp [normApply, hg]
        _ = getCol df n := ih df n hn

/-- The normalized table keeps every column of the input. -/
theorem normApply_keys_mono (A : List (Str × Str)) (df : DataFrame) (n : Str)
    (h : n ∈ keys df) : n ∈ keys (normApply A df).1 := by
  obtain ⟨v, hv⟩ := getCol_some_of_mem df n h
  exact mem_of_getCol_some _ n v ((normApply_getCol_mem A df n h).trans hv)

/-- Every column of the normalized table is an input column or a canonical. -/
theorem normApply_keys_sub :
    ∀ (A : List (Str × Str)) (df : DataFrame) (n : Str),
      n ∈ keys (normApply A df).1 → n ∈ keys df ∨ n ∈ A.map Prod.snd := by
  intro A
  induction A with
  | nil => intro df n h; exact Or.inl h
  | cons p rest ih =>
    intro df n h
    obtain ⟨al, can⟩ := p
    by_cases hg : al ∈ keys df ∧ can ∉ keys df
    · have h' : n ∈ keys (normApply rest (df ++ [(can, getColD df al)])).1 := by
        simpa [normApply, hg] using h
      rcases ih _ n h' with h1 | h1
      · rw [keys_append_one] at h1
        rcases List.mem_append.mp h1 with h2 | h2
        · exact Or.inl h2
        · right
          simp only [List.mem_singleton] at h2
          simp [h2]
      · right; simp [h1]
    · have h' : n ∈ keys (normApply rest df).1 := by simpa [normApply, hg] using h
      rcases ih df n h' with h1 | h1
      · exact Or.inl h1
      · right; simp [h1]

/-- A pair whose alias is present in the input ends with its canonical
present in the output. -/
theorem normApply_processed :
    ∀ (A : List (Str × Str)) (df : DataFrame) (al can : Str),
      (al, can) ∈ A → al ∈ keys df → can ∈ keys (normApply A df).1 := by
  intro A
  induction A with
  | nil => intro df al can h _; simp at h
  | cons p rest ih =>
    intro df al can hmem hal
    obtain ⟨a1, c1⟩ := p
    by_cases hg : a1 ∈ keys df ∧ c1 ∉ keys df
    · have hstep : (normApply ((a1, c1) :: rest) df).1
          = (normApply rest (df ++ [(c1, getColD df a1)])).1 := by
        simp [normApply, hg]
      rcases List.mem_cons.mp hmem with he | hrest
      · have : can = c1 := (Prod.mk.injEq _ _ _ _ ▸ he).2
        subst this
        rw [hstep]
        apply normApply_keys_mono
        rw [keys_append_one]
        simp
      · rw [hstep]
        apply ih _ al can hrest
        rw [keys_append_one]
        exact List.mem_append_left _ hal
    · have hstep : (normApply ((a1, c1) :: rest) df).1 = (normApply rest df).1 := by
        simp [normApply, hg]
      rcases List.mem_cons.mp hmem with he | hrest
      · have hae : al = a1 := (Prod.mk.injEq _ _ _ _ ▸ he).1
        have hce : can = c1 := (Prod.mk.injEq _ _ _ _ ▸ he).2
        subst hae; subst hce
        have hcan : can ∈ keys df := by
          by_contra hc
          exact hg ⟨hal, hc⟩
        rw [hstep]
        exact normApply_keys_mono rest df can hcan
      · rw [hstep]
        exact ih df al can hrest hal

/-- When every present alias already has its canonical present, the
normalization pass is the identity and logs nothing. -/
theorem normApply_id :
    ∀ (A : List (Str × Str)) (df : DataFrame),
      (∀ p ∈ A, p.1 ∈ keys df → p.2 ∈ keys df) → normApply A df = (df, []) := by
  intro A
  induction A with
  | nil => intro df _; rfl
  | cons p rest ih =>
    intro df h
    obtain ⟨al, can⟩ := p
    have hg : ¬ (al ∈ keys df ∧ can ∉ keys df) := by
      rintro ⟨h1, h2⟩
      exact h2 (h (al, can) (List.mem_cons_self _ _) h1)
    have : normApply ((al, can) :: rest) df = normApply rest df := by
      simp [normApply, hg]
    rw [this]
    exact ih df (fun p hp => h p (List.mem_cons_of_mem _ hp))

/-- No alias of `COLUMN_ALIASES` is also a canonical name. -/
theorem aliases_canons_disjoint :
    ∀ a ∈ COLUMN_ALIASES.map Prod.fst, a ∉ COLUMN_ALIASES.map Prod.snd := by
  decide

/-- C7.  Normalization is idempotent on the table, and a second pass adds
no further columns, changes no values, and logs nothing. -/
theorem claim_C7_normalize_idempotent (df : DataFrame) :
    normApply COLUMN_ALIASES (normApply COLUMN_ALIASES df).1
      = ((normApply COLUMN_ALIASES df).1, []) := by
  apply normApply_id
  intro p hp hmem
  rcases normApply_keys_sub COLUMN_ALIASES df p.1 hmem with h | h
  · exact normApply_processed COLUMN_ALIASES df p.1 p.2 (by simpa using hp) h
  · exact absurd h
      (aliases_canons_disjoint p.1 (List.mem_map.mpr ⟨p, hp, rfl⟩))

end AutoScout

namespace AutoScout

theorem findFirst_cong {α : Type} (p q : α → Bool) :
    ∀ l : List α, (∀ a ∈ l, p a = q a) → l.find? p = l.find? q := by
  intro l
  induction l with
  | nil => intro _; rfl
  | cons x xs ih =>
    intro h
    have hx := h x (List.mem_cons_self _ _)
    by_cases hp : p x = true
    · simp [List.find?_cons, hp, hx ▸ hp]
    · have hp' : p x = false := by simpa using hp
      have hq' : q x = false := hx ▸ hp'
      simp only [List.find?_cons, hp', hq']
      exact ih (fun a ha => h a (List.mem_cons_of_mem _ ha))

theorem firstPresentAlias_cons (a c : Str) (rest : List (Str × Str))
    (df : DataFrame) (can : Str) :
    firstPresentAlias ((a, c) :: rest) df can
      = if c == can && decide (a ∈ keys df) then some a
        else firstPresentAlias rest df can := by
  by_cases h : (c == can && decide (a ∈ keys df)) = true
  · simp [firstPresentAlias, List.find?_cons, h]
  · have h' : (c == can && decide (a ∈ keys df)) = false := by simpa using h
    simp [firstPresentAlias, List.find?_cons, h']

/-- The first-present-alias witness lies in the map and is present. -/
theorem firstPresentAlias_spec (A : List (Str × Str)) (df : DataFrame)
    (can al0 : Str) (h : firstPresentAlias A df can = some al0) :
    al0 ∈ A.map Prod.fst ∧ al0 ∈ keys df := by
  unfold firstPresentAlias at h
  obtain ⟨pr, hf, he⟩ := Option.map_eq_some'.mp h
  have hmem := List.mem_of_find?_eq_some hf
  have hpred := List.find?_some hf
  simp only [Bool.and_eq_true, decide_eq_true_eq] at hpred
  exact ⟨List.mem_map.mpr ⟨pr, hmem, he⟩, he ▸ hpred.2⟩

/-- The central correctness lemma for `normalize_columns`: whenever some
alias for a missing canonical is present, the canonical column of the
output carries the values of the *first* present alias for it in map
order, and exactly that mapping is logged. -/
theorem normApply_canonical :
    ∀ (A : List (Str × Str)) (df : DataFrame),
      (∀ a ∈ A.map Prod.fst, a ∉ A.map Prod.snd) →
      ∀ al can, (al, can) ∈ A → al ∈ keys df → can ∉ keys df →
        ∃ al0, firstPresentAlias A df can = some al0
          ∧ getCol (normApply A df).1 can = getCol df al0
          ∧ mappingEntry al0 can ∈ (normApply A df).2 := by
  intro A
  induction A with
  | nil => intro df _ al can h _ _; simp at h
  | cons p rest ih =>
    intro df hdisj al can hmem hal hcan
    obtain ⟨a1, c1⟩ := p
    have hdisj' : ∀ a ∈ rest.map Prod.fst, a ∉ rest.map Prod.snd := by
      intro a ha hc
      obtain ⟨pr, hpr, he⟩ := List.mem_map.mp ha
      obtain ⟨qr, hqr, he2⟩ := List.mem_map.mp hc
      exact hdisj a (List.mem_map.mpr ⟨pr, List.mem_cons_of_mem _ hpr, he⟩)
        (List.mem_map.mpr ⟨qr, List.mem_cons_of_mem _ hqr, he2⟩)
    have hc1mem : c1 ∈ ((a1, c1) :: rest).map Prod.snd :=
      List.mem_map.mpr ⟨(a1, c1), List.mem_cons_self _ _, rfl⟩
    by_cases hg : a1 ∈ keys df ∧ c1 ∉ keys df
    · have hunf : normApply ((a1, c1) :: rest) df
          = ((normApply rest (df ++ [(c1, getColD df a1)])).1,
             mappingEntry a1 c1 :: (normApply rest (df ++ [(c1, getColD df a1)])).2) := by
        simp [normApply, hg]
      set df' := df ++ [(c1, getColD df a1)] with hdf'
      by_cases hceq : can = c1
      · subst hceq
        refine ⟨a1, ?_, ?_, ?_⟩
        · rw [firstPresentAlias_cons]
          simp [hg.1]
        · rw [hunf]
          have hc1 : can ∈ keys df' := by rw [hdf', keys_append_one]; simp
          rw [normApply_getCol_mem rest df' can hc1]
          rw [hdf', getCol_append_self df can (getColD df a1) hg.2]
          obtain ⟨v, hv⟩ := getCol_some_of_mem df a1 hg.1
          rw [hv]
          simp [getColD, hv]
        · rw [hunf]
          exact List.mem_cons_self _ _
      · have hmem' : (al, can) ∈ rest := by
          rcases List.mem_cons.mp hmem with he | hr
          · exact absurd (Prod.mk.injEq _ _ _ _ ▸ he).2 hceq
          · exact hr
        have hal' : al ∈ keys df' := by
          rw [hdf', keys_append_one]; exact List.mem_append_left _ hal
        have hcan' : can ∉ keys df' := by
          rw [hdf', keys_append_one]
          intro hm
          rcases List.mem_append.mp hm with h1 | h1
          · exact hcan h1
          · simp only [List.mem_singleton] at h1
            exact hceq h1
        obtain ⟨al0, h1, h2, h3⟩ := ih df' hdisj' al can hmem' hal' hcan'
        have hal0 := firstPresentAlias_spec rest df' can al0 h1
        have hal0A : al0 ∈ ((a1, c1) :: rest).map Prod.fst := by
          obtain ⟨pr, hpr, he⟩ := List.mem_map.mp hal0.1
          exact List.mem_map.mpr ⟨pr, List.mem_cons_of_mem _ hpr, he⟩
        have hal0c1 : al0 ≠ c1 := by
          intro he
          exact hdisj al0 hal0A (by rw [he]; exact hc1mem)
        have hal0df : al0 ∈ keys df := by
          have := hal0.2
          rw [hdf', keys_append_one] at this
          rcases List.mem_append.mp this with h4 | h4
          · exact h4
          · simp only [List.mem_singleton] at h4
            exact absurd h4 hal0c1
        have hcongr : firstPresentAlias rest df can = firstPresentAlias rest df' can := by
          unfold firstPresentAlias
          congr 1
          apply findFirst_cong
          intro pr hpr
          by_cases hc : (pr.2 == can) = true
          · simp only [hc, Bool.true_and]
            have hprc1 : pr.1 ≠ c1 := by
              intro he
              refine hdisj pr.1 ?_ (by rw [he]; exact hc1mem)
              exact List.mem_map.mpr ⟨pr, List.mem_cons_of_mem _ hpr, rfl⟩
            have hiff : pr.1 ∈ keys df' ↔ pr.1 ∈ keys df := by
              rw [hdf', keys_append_one]
              constructor
              · intro hm
                rcases List.mem_append.mp hm with h4 | h4
                · exact h4
                · simp only [List.mem_singleton] at h4
                  exact absurd h4 hprc1
              · exact fun hm => List.mem_append_left _ hm
            simp [hiff]
          · have hc' : (pr.2 == can) = false := by simpa using hc
            simp [hc']
        refine ⟨al0, ?_, ?_, ?_⟩
        · rw [firstPresentAlias_cons]
          have hc1can : (c1 == can) = false := by
            rw [beq_eq_false_iff_ne]
            exact fun he => hceq he.symm
          have hcond : (c1 == can && decide (a1 ∈ keys df)) = false := by
            simp [hc1can]
          rw [hcond]
          simpa using hcongr.trans h1
        · rw [hunf]
          simpa [hdf', getCol_append_of_mem df _ al0 hal0df] using h2
        · rw [hunf]
          exact List.mem_cons_of_mem _ h3
    · have hunf : normApply ((a1, c1) :: rest) df = normApply rest df := by
        simp [normApply, hg]
      have hmem' : (al, can) ∈ rest := by
        rcases List.mem_cons.mp hmem with he | hr
        · exfalso
          have h1 := (Prod.mk.injEq _ _ _ _ ▸ he).1
          have h2 := (Prod.mk.injEq _ _ _ _ ▸ he).2
          exact hg ⟨h1 ▸ hal, h2 ▸ hcan⟩
        · exact hr
      obtain ⟨al0, h1, h2, h3⟩ := ih df hdisj' al can hmem' hal hcan
      refine ⟨al0, ?_, hunf ▸ h2, hunf ▸ h3⟩
      rw [firstPresentAlias_cons]
      by_cases hc : (c1 == can) = true
      · have hc1 : c1 = can := beq_iff_eq.mp hc
        have ha1 : a1 ∉ keys df := by
          intro hm
          exact hg ⟨hm, hc1 ▸ hcan⟩
        simp [hc, ha1, h1]
      · have hc' : (c1 == can) = false := by simpa using hc
        simp [hc', h1]

end AutoScout

namespace AutoScout

/-- C2 counterexample.  The claim's per-pair reading fails when two
aliases of the same canonical are present: on the table with columns
`Squad = [a]` and `Team Name = [b]`, the pair `("Team Name", "Team")`
satisfies the claim's hypotheses, yet the added `Team` column carries the
values of `Squad` (the earlier alias), not those of `Team Name`. -/
theorem claim_C2_counterexample :
    (S "Team Name", S "Team") ∈ COLUMN_ALIASES
      ∧ S "Team Name" ∈ keys dfSquadPair
      ∧ S "Team" ∉ keys dfSquadPair
      ∧ getCol ((VisualizationUtils.init dfSquadPair).normalize_columns).1 (S "Team")
          ≠ getCol dfSquadPair (S "Team Name") := by
  decide

/-- C2 (amended).  `normalize_columns` retains every existing column
unchanged, and for every `(alias, canonical)` pair of the map with the
alias present and the canonical absent, a `canonical` column is added
whose values are those of the *first* alias for that canonical (in map
order) present in the table, with the corresponding mapping logged. -/
theorem claim_C2_normalize_columns (st : VisualizationUtils) :
    (∀ n ∈ keys st.df, getCol (st.normalize_columns).1 n = getCol st.df n)
      ∧ (∀ al can, (al, can) ∈ COLUMN_ALIASES → al ∈ keys st.df → can ∉ keys st.df →
          ∃ al0, firstPresentAlias COLUMN_ALIASES st.df can = some al0
            ∧ getCol (st.normalize_columns).1 can = getCol st.df al0
            ∧ mappingEntry al0 can ∈ (st.normalize_columns).2.corrections_log) := by
  constructor
  · intro n hn
    exact normApply_getCol_mem COLUMN_ALIASES st.df n hn
  · intro al can hm hal hcan
    obtain ⟨al0, h1, h2, h3⟩ :=
      normApply_canonical COLUMN_ALIASES st.df aliases_canons_disjoint al can hm hal hcan
    refine ⟨al0, h1, h2, ?_⟩
    show mappingEntry al0 can ∈ st.corrections_log ++ (normApply COLUMN_ALIASES st.df).2
    exact List.mem_append_right _ h3

/-- C2 witness: the amended claim applied to the table whose single
column is `Squad Name`. -/
theorem claim_C2_witness :
    ∃ al0, firstPresentAlias COLUMN_ALIASES dfSquadName (S "Team") = some al0
      ∧ getCol ((VisualizationUtils.init dfSquadName).normalize_columns).1 (S "Team")
          = getCol dfSquadName al0
      ∧ mappingEntry al0 (S "Team")
          ∈ ((VisualizationUtils.init dfSquadName).normalize_columns).2.corrections_log :=
  (claim_C2_normalize_columns (VisualizationUtils.init dfSquadName)).2
    (S "Squad Name") (S "Team") (by decide) (by decide) (by decide)

end AutoScout

namespace AutoScout

/-- C8 counterexample.  On the table with columns `Squad = [x]` and
`Squad Name = [y]` (which has a `Squad Name` column and no `Team`
column), normalization adds `Team` with the values of `Squad`, so `Team`
is not identical to `Squad Name` and the log entry for `Squad Name` is
absent. -/
theorem claim_C8_counterexample :
    S "Squad Name" ∈ keys dfSquadBoth
      ∧ S "Team" ∉ keys dfSquadBoth
      ∧ getCol ((VisualizationUtils.init dfSquadBoth).normalize_columns).1 (S "Team")
          ≠ getCol ((VisualizationUtils.init dfSquadBoth).normalize_columns).1 (S "Squad Name")
      ∧ mappingEntry (S "Squad Name") (S "Team")
          ∉ ((VisualizationUtils.init dfSquadBoth).normalize_columns).2.corrections_log := by
  decide

/-- C8 (amended).  For every table with a `Squad Name` column, no `Team`
column, and neither of the earlier `Team` aliases `Squad` / `Team Name`,
the normalized table keeps `Squad Name` unchanged and gains a `Team`
column with identical values, and the mapping
`Column mapping: 'Squad Name' → 'Team'` is logged. -/
theorem claim_C8_squad_name (st : VisualizationUtils)
    (h1 : S "Squad Name" ∈ keys st.df) (h2 : S "Team" ∉ keys st.df)
    (h3 : S "Squad" ∉ keys st.df) (h4 : S "Team Name" ∉ keys st.df) :
    getCol (st.normalize_columns).1 (S "Team") = getCol st.df (S "Squad Name")
      ∧ getCol (st.normalize_columns).1 (S "Squad Name") = getCol st.df (S "Squad Name")
      ∧ mappingEntry (S "Squad Name") (S "Team")
          ∈ (st.normalize_columns).2.corrections_log := by
  have hfirst : firstPresentAlias COLUMN_ALIASES st.df (S "Team") = some (S "Squad Name") := by
    simp [COLUMN_ALIASES, firstPresentAlias_cons, h1, h3, h4]
  obtain ⟨al0, hf, hcol, hlog⟩ :=
    normApply_canonical COLUMN_ALIASES st.df aliases_canons_disjoint
      (S "Squad Name") (S "Team") (by decide) h1 h2
  have hal0 : al0 = S "Squad Name" := by
    rw [hfirst] at hf
    exact (Option.some.injEq _ _ ▸ hf.symm)
  subst hal0
  refine ⟨hcol, normApply_getCol_mem COLUMN_ALIASES st.df _ h1, ?_⟩
  show mappingEntry (S "Squad Name") (S "Team")
      ∈ st.corrections_log ++ (normApply COLUMN_ALIASES st.df).2
  exact List.mem_append_right _ hlog

/-- C8 witness: the amended claim applied to the concrete table whose
single column is `Squad Name = [v]`. -/
theorem claim_C8_witness :
    getCol ((VisualizationUtils.init dfSquadName).normalize_columns).1 (S "Team")
        = getCol dfSquadName (S "Squad Name")
      ∧ getCol ((VisualizationUtils.init dfSquadName).normalize_columns).1 (S "Squad Name")
          = getCol dfSquadName (S "Squad Name")
      ∧ mappingEntry (S "Squad Name") (S "Team")
          ∈ ((VisualizationUtils.init dfSquadName).normalize_columns).2.corrections_log :=
  claim_C8_squad_name (VisualizationUtils.init dfSquadName)
    (by decide) (by decide) (by decide) (by decide)

end AutoScout

namespace AutoScout

/-- C9.  `normalize_columns` never mutates the stored table: afterwards
`self.df` is unchanged, the column-info report is computed from the same
original table, and `execute_code_safely` (whose namespace binds `df` to
`self.df`) behaves exactly as before normalization. -/
theorem claim_C9_normalize_no_mutation (st : VisualizationUtils)
    (dtypeOf : List Cell → Str) (reprL : List Str → Str)
    (run : Runner) (fmt : Str → Except Str Str) (code : Str) :
    (st.normalize_columns).2.df = st.df
      ∧ VisualizationUtils.get_available_columns_info dtypeOf reprL (st.normalize_columns).2
          = VisualizationUtils.get_available_columns_info dtypeOf reprL st
      ∧ (execute_code_safely run fmt (st.normalize_columns).2 code).1
          = (execute_code_safely run fmt st code).1 := by
  refine ⟨rfl, rfl, ?_⟩
  have hdf : (st.normalize_columns).2.df = st.df := rfl
  unfold execute_code_safely
  by_cases hg : (check_code_safety code).1 = false
  · simp [hg]
  · simp only [hdf, if_neg hg]
    cases run (auto_fix_plot_code fmt st.df code).1 st.df <;> rfl

end AutoScout

namespace AutoScout

/-- C3.  `execute_code_safely` yields exactly one execution result per
attempt: on unsafe code it returns, independently of the runner and the
formatter, a failure carrying the joined violation list without executing
or repairing anything; on safe code whose execution raises, the failure
message embeds both the exception message and the full traceback; and on
every path the result is either a success with a buffer or a failure
without one — no exception escapes the boundary. -/
theorem claim_C3_execute_code_safely (run run' : Runner)
    (fmt fmt' : Str → Except Str Str) (st : VisualizationUtils) (code : Str) :
    ((check_code_safety code).1 = false →
        execute_code_safely run fmt st code = execute_code_safely run' fmt' st code
          ∧ (execute_code_safely run fmt st code).1
              = (false, S "Code blocked for security reasons: "
                  ++ joinSep (S "; ") (check_code_safety code).2, none))
      ∧ (∀ e : ExecErr, (check_code_safety code).1 = true →
          run (auto_fix_plot_code fmt st.df code).1 st.df = Except.error e →
            (execute_code_safely run fmt st code).1.1 = false
              ∧ (execute_code_safely run fmt st code).1.2.2 = none
              ∧ e.msg <:+: (execute_code_safely run fmt st code).1.2.1
              ∧ e.tb <:+: (execute_code_safely run fmt st code).1.2.1)
      ∧ (((execute_code_safely run fmt st code).1.1 = true
            ∧ (execute_code_safely run fmt st code).1.2.2 ≠ none)
          ∨ ((execute_code_safely run fmt st code).1.1 = false
            ∧ (execute_code_safely run fmt st code).1.2.2 = none)) := by
  refine ⟨?_, ?_, ?_⟩
  · intro hg
    unfold execute_code_safely
    simp [hg]
  · intro e hg hr
    have hg' : ¬ (check_code_safety code).1 = false := by simp [hg]
    unfold execute_code_safely
    simp only [if_neg hg', hr]
    refine ⟨by trivial, by trivial, ?_, ?_⟩
    · exact ⟨S "Execution error: ", S "\nTraceback: " ++ e.tb, by simp⟩
    · exact ⟨S "Execution error: " ++ e.msg ++ S "\nTraceback: ", [], by simp⟩
  · unfold execute_code_safely
    by_cases hg : (check_code_safety code).1 = false
    · simp [hg]
    · simp only [if_neg hg]
      cases run (auto_fix_plot_code fmt st.df code).1 st.df with
      | ok buf => left; simp
      | error e => right; simp

/-- C3 witness: the unsafe branch on `import os` and the raising branch
on the safe code `x = 1`, at concrete runners and formatters. -/
theorem claim_C3_witness :
    (execute_code_safely okRun okFmt (VisualizationUtils.init []) (S "import os")).1
        = (false, S "Code blocked for security reasons: "
            ++ joinSep (S "; ") (check_code_safety (S "import os")).2, none)
      ∧ S "division by zero"
          <:+: (execute_code_safely errRun okFmt (VisualizationUtils.init []) (S "x = 1")).1.2.1
      ∧ S "Traceback text"
          <:+: (execute_code_safely errRun okFmt (VisualizationUtils.init []) (S "x = 1")).1.2.1 := by
  refine ⟨?_, ?_, ?_⟩
  · exact ((claim_C3_execute_code_safely okRun okRun okFmt okFmt
      (VisualizationUtils.init []) (S "import os")).1 (by decide)).2
  · exact ((claim_C3_execute_code_safely errRun errRun okFmt okFmt
      (VisualizationUtils.init []) (S "x = 1")).2.1
        ⟨S "division by zero", S "Traceback text"⟩ (by decide) rfl).2.2.1
  · exact ((claim_C3_execute_code_safely errRun errRun okFmt okFmt
      (VisualizationUtils.init []) (S "x = 1")).2.1
        ⟨S "division by zero", S "Traceback text"⟩ (by decide) rfl).2.2.2

end AutoScout

namespace AutoScout

/-- C4 counterexample.  With the table's columns including `Player` and
code referencing `df['Players']` (twice), the repair loop iterates over
the occurrence list and appends one column-fix entry per occurrence: the
returned corrections list holds the entry twice, not "exactly once". -/
theorem claim_C4_counterexample :
    S "Player" ∈ keys dfPlayerOnly
      ∧ S "Players" ∈ findRefs (replStage codeTwoRefs).1
      ∧ (auto_fix_plot_code okFmt dfPlayerOnly codeTwoRefs).2.count
          (colFixEntry (S "Players") (S "Player")) = 2 := by
  decide

/-- C4 (amended).  On the table with single column `Player` and code
referencing `df['Players']` once, the reference is rewritten to
`df['Player']` (its similarity to `Player` clears the 0.6 cutoff) with
exactly one column-fix entry; in general the loop appends one column-fix
entry per occurrence of the reference, so the doubled reference of the
counterexample yields exactly as many entries as occurrences. -/
theorem claim_C4_column_fix (fmt : Str → Except Str Str) :
    (auto_fix_plot_code fmt dfPlayerOnly (S "df['Players']")).2
        = colFixEntry (S "Players") (S "Player")
            :: [match fmt (S "df['Player']") with
                | .ok _ => S "Code auto-formatted with autopep8"
                | .error e => S "Auto-formatting failed: " ++ e]
      ∧ (auto_fix_plot_code fmt dfPlayerOnly (S "df['Players']")).1
          = (match fmt (S "df['Player']") with
             | .ok c => c
             | .error _ => S "df['Player']")
      ∧ 10 * matchingTotal (S "Player") (S "Players")
          ≥ 3 * ((S "Player").length + (S "Players").length)
      ∧ (auto_fix_plot_code okFmt dfPlayerOnly codeTwoRefs).2.count
          (colFixEntry (S "Players") (S "Player"))
        = (findRefs (replStage codeTwoRefs).1).count (S "Players") := by
  have hstage : colStage dfPlayerOnly (S "df['Players']")
      = (S "df['Player']", [colFixEntry (S "Players") (S "Player")]) := by decide
  refine ⟨?_, ?_, by decide, by decide⟩
  · unfold auto_fix_plot_code
    rw [hstage]
    cases fmt (S "df['Player']") <;> rfl
  · unfold auto_fix_plot_code
    rw [hstage]
    cases fmt (S "df['Player']") <;> rfl

/-- C4 witness: the amended claim at the identity formatter and an empty
value column. -/
theorem claim_C4_witness :
    (auto_fix_plot_code okFmt dfPlayerOnly (S "df['Players']")).2
        = colFixEntry (S "Players") (S "Player")
            :: [S "Code auto-formatted with autopep8"] :=
  (claim_C4_column_fix okFmt).1

end AutoScout

namespace AutoScout

/-- The repair loop only ever appends to the corrections list. -/
theorem colFixLoop_corr_mono (cols : List Str) :
    ∀ (ms : List Str) (code : Str) (corr : List Str) (e : Str),
      e ∈ corr → e ∈ (colFixLoop cols ms (code, corr)).2 := by
  intro ms
  induction ms with
  | nil => intro code corr e he; exact he
  | cons col rest ih =>
    intro code corr e he
    by_cases hc : col ∈ cols
    · simpa [colFixLoop, hc] using ih code corr e he
    · cases hm : getCloseMatches col cols with
      | nil =>
        have := ih code (corr ++ [warnEntry col]) e (List.mem_append_left _ he)
        simpa [colFixLoop, hc, hm] using this
      | cons m tl =>
        have := ih (replaceRef col m code) (corr ++ [colFixEntry col m]) e
          (List.mem_append_left _ he)
        simpa [colFixLoop, hc, hm] using this

/-- When every referenced column is either a real column or has no close
match, the repair loop leaves the code untouched. -/
theorem colFixLoop_code_id (cols : List Str) :
    ∀ (ms : List Str) (code : Str) (corr : List Str),
      (∀ col ∈ ms, col ∈ cols ∨ getCloseMatches col cols = []) →
        (colFixLoop cols ms (code, corr)).1 = code := by
  intro ms
  induction ms with
  | nil => intro code corr _; rfl
  | cons col rest ih =>
    intro code corr h
    have hrest : ∀ c ∈ rest, c ∈ cols ∨ getCloseMatches c cols = [] :=
      fun c hc => h c (List.mem_cons_of_mem _ hc)
    by_cases hc : col ∈ cols
    · simpa [colFixLoop, hc] using ih code corr hrest
    · have hm : getCloseMatches col cols = [] :=
        (h col (List.mem_cons_self _ _)).resolve_left hc
      simpa [colFixLoop, hc, hm] using ih code (corr ++ [warnEntry col]) hrest

/-- A referenced column that is missing and has no close match gets a
warning entry appended by the repair loop. -/
theorem colFixLoop_warn (cols : List Str) :
    ∀ (ms : List Str) (code : Str) (corr : List Str) (col : Str),
      col ∈ ms → col ∉ cols → getCloseMatches col cols = [] →
        warnEntry col ∈ (colFixLoop cols ms (code, corr)).2 := by
  intro ms
  induction ms with
  | nil => intro code corr col hmem _ _; simp at hmem
  | cons c0 rest ih =>
    intro code corr col hmem hcols hgcm
    by_cases hc : c0 ∈ cols
    · have hcol : col ∈ rest := by
        rcases List.mem_cons.mp hmem with he | hr
        · exact absurd (he ▸ hc) hcols
        · exact hr
      simpa [colFixLoop, hc] using ih code corr col hcol hcols hgcm
    · cases hm : getCloseMatches c0 cols with
      | nil =>
        by_cases he : col = c0
        · subst he
          have := colFixLoop_corr_mono cols rest code (corr ++ [warnEntry col])
            (warnEntry col) (List.mem_append_right _ (List.mem_singleton.mpr rfl))
          simpa [colFixLoop, hc, hm] using this
        · have hcol : col ∈ rest := by
            rcases List.mem_cons.mp hmem with h1 | h1
            · exact absurd h1 he
            · exact h1
          simpa [colFixLoop, hc, hm] using
            ih code (corr ++ [warnEntry c0]) col hcol hcols hgcm
      | cons m tl =>
        have hcol : col ∈ rest := by
          rcases List.mem_cons.mp hmem with h1 | h1
          · exfalso
            rw [h1] at hgcm
            rw [hgcm] at hm
            exact List.cons_ne_nil m tl hm.symm
          · exact h1
        simpa [colFixLoop, hc, hm] using
          ih (replaceRef c0 m code) (corr ++ [colFixEntry c0 m]) col hcol hcols hgcm

/-- C5.  `auto_fix_plot_code` is total (the embedding is a function, and
both branches of the source's `try/except` produce a result): when no
referenced column has a close match the code passes the repair loop
unchanged; a missing reference without a close match is logged as a
warning and nothing else happens to it; and when the reformatting step
raises, the pre-reformat code is returned together with a logged
formatting-failure entry. -/
theorem claim_C5_auto_fix_never_raises (fmt : Str → Except Str Str)
    (df : DataFrame) (code : Str) :
    ((∀ col ∈ findRefs (replStage code).1,
        col ∈ keys df ∨ getCloseMatches col (keys df) = []) →
      (colStage df code).1 = (replStage code).1)
    ∧ (∀ col ∈ findRefs (replStage code).1,
        col ∉ keys df → getCloseMatches col (keys df) = [] →
          warnEntry col ∈ (auto_fix_plot_code fmt df code).2)
    ∧ (∀ e, fmt (colStage df code).1 = Except.error e →
        (auto_fix_plot_code fmt df code).1 = (colStage df code).1
          ∧ (auto_fix_plot_code fmt df code).2
              = (colStage df code).2 ++ [S "Auto-formatting failed: " ++ e]) := by
  refine ⟨?_, ?_, ?_⟩
  · intro h
    unfold colStage
    exact colFixLoop_code_id (keys df) _ (replStage code).1 (replStage code).2 h
  · intro col hmem hcols hgcm
    have hwarn : warnEntry col ∈ (colStage df code).2 := by
      unfold colStage
      exact colFixLoop_warn (keys df) _ (replStage code).1 (replStage code).2
        col hmem hcols hgcm
    unfold auto_fix_plot_code
    cases fmt (colStage df code).1 with
    | ok c => exact List.mem_append_left _ hwarn
    | error e => exact List.mem_append_left _ hwarn
  · intro e he
    unfold auto_fix_plot_code
    rw [he]
    exact ⟨rfl, rfl⟩

/-- C5 witness: `df['zzz']` against the columns `Player`, `Team` (no
close match) with an always-raising formatter. -/
theorem claim_C5_witness :
    (colStage dfPlayerTeam codeZzz).1 = (replStage codeZzz).1
      ∧ warnEntry (S "zzz") ∈ (auto_fix_plot_code errFmt dfPlayerTeam codeZzz).2
      ∧ (auto_fix_plot_code errFmt dfPlayerTeam codeZzz).1 = (colStage dfPlayerTeam codeZzz).1 := by
  refine ⟨?_, ?_, ?_⟩
  · exact (claim_C5_auto_fix_never_raises errFmt dfPlayerTeam codeZzz).1 (by decide)
  · exact (claim_C5_auto_fix_never_raises errFmt dfPlayerTeam codeZzz).2.1
      (S "zzz") (by decide) (by decide) (by decide)
  · exact ((claim_C5_auto_fix_never_raises errFmt dfPlayerTeam codeZzz).2.2
      (S "boom") rfl).1

end AutoScout

namespace AutoScout

theorem noCross_p_ne_nil {p t : Str} (h : NoCross p t) : p ≠ [] := by
  intro he
  exact h.1 (he ▸ List.nil_infix)

theorem noCross_t_ne_nil {p t : Str} (h : NoCross p t) : t ≠ [] := by
  intro he
  exact h.2.1 (he ▸ List.nil_infix)

theorem noCross_suffix_t {p t : Str} (h : NoCross p t) (t1 t2 : Str)
    (ht : t = t1 ++ t2) (h1 : t1 ≠ []) (h2 : t2 ≠ []) : ¬ (t2 <+: p) := by
  have hdrop : t.drop t1.length = t2 := by rw [ht, List.drop_left]
  have hlt : t1.length < t.length := by
    rw [ht, List.length_append]
    have : 0 < t2.length := List.length_pos.mpr h2
    omega
  have hpos : 0 < t1.length := List.length_pos.mpr h1
  exact hdrop ▸ h.2.2.1 t1.length hlt hpos

theorem noCross_suffix_p {p t : Str} (h : NoCross p t) (p1 p2 : Str)
    (hp : p = p1 ++ p2) (h1 : p1 ≠ []) (h2 : p2 ≠ []) : ¬ (p2 <+: t) := by
  have hdrop : p.drop p1.length = p2 := by rw [hp, List.drop_left]
  have hlt : p1.length < p.length := by
    rw [hp, List.length_append]
    have : 0 < p2.length := List.length_pos.mpr h2
    omega
  have hpos : 0 < p1.length := List.length_pos.mpr h1
  exact hdrop ▸ h.2.2.2 p1.length hlt hpos

/-- Occurrences of `t` at the front survive `replaceAllF p r` when `p`
cannot overlap `t`: a prefix `t2` of the scanned text that is a nonempty
proper tail of `t` stays a prefix of the output. -/
theorem replaceAllF_keeps_prefix (p r t : Str) (hNC : NoCross p t) :
    ∀ (fuel : Nat) (s t1 t2 : Str), t = t1 ++ t2 → t1 ≠ [] → t2 <+: s →
      t2 <+: replaceAllF p r fuel s := by
  intro fuel
  induction fuel with
  | zero =>
    intro s t1 t2 ht ht1 hpre
    cases s with
    | nil =>
      have : t2 = [] := List.prefix_nil.mp hpre
      simp [replaceAllF, this]
    | cons c rest => simpa [replaceAllF] using hpre
  | succ fuel ih =>
    intro s t1 t2 ht ht1 hpre
    cases s with
    | nil =>
      have : t2 = [] := List.prefix_nil.mp hpre
      simp [replaceAllF, this]
    | cons c rest =>
      cases t2 with
      | nil => simp [List.nil_prefix]
      | cons c2 t2' =>
        by_cases hp : p.isPrefixOf (c :: rest) = true
        · exfalso
          have hps : p <+: (c :: rest) := List.isPrefixOf_iff_prefix.mp hp
          rcases List.prefix_or_prefix_of_prefix hps hpre with hcase | hcase
          · -- p a prefix of t2, hence an infix of t: contradiction
            have h1 : (c2 :: t2') <:+: t := by
              rw [ht]
              exact (List.suffix_append t1 (c2 :: t2')).isInfix
            exact hNC.1 (hcase.isInfix.trans h1)
          · -- t2 a nonempty proper suffix of t prefixing p: contradiction
            exact noCross_suffix_t hNC t1 (c2 :: t2') ht ht1 (List.cons_ne_nil _ _) hcase
        · have hc2 : c2 = c ∧ t2' <+: rest := List.cons_prefix_cons.mp hpre
          have hrec : t2' <+: replaceAllF p r fuel rest := by
            refine ih rest (t1 ++ [c2]) t2' ?_ (by simp) hc2.2
            rw [ht, List.append_assoc]
            rfl
          rw [replaceAllF]
          simp only [hp, if_false, Bool.false_eq_true]
          exact List.cons_prefix_cons.mpr ⟨hc2.1, hrec⟩

/-- Occurrences of `t` survive `replaceAllF p r` when `p` cannot overlap
`t`. -/
theorem replaceAllF_keeps_infix (p r t : Str) (hNC : NoCross p t) :
    ∀ (fuel : Nat) (s : Str), t <:+: s → t <:+: replaceAllF p r fuel s := by
  intro fuel
  induction fuel with
  | zero =>
    intro s hin
    cases s with
    | nil => simpa [replaceAllF] using hin
    | cons c rest => simpa [replaceAllF] using hin
  | succ fuel ih =>
    intro s hin
    cases s with
    | nil => simpa [replaceAllF] using hin
    | cons c rest =>
      obtain ⟨u, v, huv⟩ := hin
      by_cases hp : p.isPrefixOf (c :: rest) = true
      · have hps : p <+: (c :: rest) := List.isPrefixOf_iff_prefix.mp hp
        obtain ⟨q, hq⟩ := hps
        have hdrop : (c :: rest).drop p.length = q := by rw [← hq, List.drop_left]
        have hut : u ++ t <+: (c :: rest) := ⟨v, huv⟩
        have hinq : t <:+: q := by
          rcases List.prefix_or_prefix_of_prefix hut (hq ▸ List.prefix_append p q)
            with hcase | hcase
          · exfalso
            exact hNC.2.1 ((List.suffix_append u t).isInfix.trans hcase.isInfix)
          · by_cases hpu : p <+: u
            · obtain ⟨u', hu'⟩ := hpu
              refine ⟨u', v, ?_⟩
              have hpq : p ++ (u' ++ t ++ v) = p ++ q := by
                rw [hq, ← huv, ← hu']
                simp [List.append_assoc]
              exact List.append_cancel_left hpq
            · exfalso
              have hup : u <+: p := by
                have huc : u <+: (c :: rest) := ⟨t ++ v, by
                  rw [← List.append_assoc]; exact huv⟩
                rcases List.prefix_or_prefix_of_prefix huc ⟨q, hq⟩ with h1 | h1
                · exact h1
                · exact absurd h1 hpu
              obtain ⟨w, hw⟩ := hup
              have hwne : w ≠ [] := by
                intro he
                rw [he, List.append_nil] at hw
                exact hpu (hw ▸ List.prefix_rfl)
              have hwt : w <+: t := by
                obtain ⟨z, hz⟩ := hcase
                have hz2 : u ++ (w ++ z) = u ++ t := by
                  rw [← List.append_assoc, hw, hz]
                exact ⟨z, List.append_cancel_left hz2⟩
              cases hu : u with
              | nil =>
                rw [hu, List.nil_append] at hw
                exact hNC.1 (hw ▸ hwt).isInfix
              | cons c0 u0 =>
                exact noCross_suffix_p hNC u w hw.symm (by simp [hu]) hwne hwt
        have hrec := ih q hinq
        obtain ⟨x, y, hxy⟩ := hrec
        rw [replaceAllF]
        simp only [hp, if_true]
        refine ⟨r ++ x, y, ?_⟩
        rw [hdrop, ← hxy]
        simp [List.append_assoc]
      · rw [replaceAllF]
        simp only [hp, if_false, Bool.false_eq_true]
        cases u with
        | nil =>
          rw [List.nil_append] at huv
          have htne : t ≠ [] := noCross_t_ne_nil hNC
          cases t with
          | nil => exact absurd rfl htne
          | cons c2 t' =>
            have hcc : c2 = c ∧ t' ++ v = rest := by
              rw [List.cons_append] at huv
              exact ⟨List.head_eq_of_cons_eq huv, List.tail_eq_of_cons_eq huv⟩
            have hpre : t' <+: rest := ⟨v, hcc.2⟩
            have hkeep := replaceAllF_keeps_prefix p r (c2 :: t') hNC fuel rest [c2] t'
              rfl (by simp) hpre
            exact (List.cons_prefix_cons.mpr ⟨hcc.1, hkeep⟩).isInfix
        | cons c0 u0 =>
          have hcc : c0 = c ∧ u0 ++ t ++ v = rest := by
            rw [List.cons_append, List.cons_append] at huv
            exact ⟨List.head_eq_of_cons_eq huv, List.tail_eq_of_cons_eq huv⟩
          have hrec := ih rest ⟨u0, v, hcc.2⟩
          obtain ⟨x, y, hxy⟩ := hrec
          refine ⟨c :: x, y, ?_⟩
          rw [List.cons_append, List.cons_append, hxy]

/-- `str.replace(p, r)` keeps every occurrence of a non-overlapping `t`. -/
theorem replaceAll_keeps_infix (p r t s : Str) (hNC : NoCross p t)
    (h : t <:+: s) : t <:+: replaceAll p r s :=
  replaceAllF_keeps_infix p r t hNC (s.length + 1) s h

/-- Replacing a pattern by itself is the identity. -/
theorem replaceAllF_self (p : Str) :
    ∀ (fuel : Nat) (s : Str), replaceAllF p p fuel s = s := by
  intro fuel
  induction fuel with
  | zero => intro s; cases s <;> simp [replaceAllF]
  | succ fuel ih =>
    intro s
    cases s with
    | nil => simp [replaceAllF]
    | cons c rest =>
      by_cases hp : p.isPrefixOf (c :: rest) = true
      · obtain ⟨q, hq⟩ := List.isPrefixOf_iff_prefix.mp hp
        have hdrop : (c :: rest).drop p.length = q := by rw [← hq, List.drop_left]
        rw [replaceAllF]
        simp only [hp, if_true]
        rw [hdrop, ih q, hq]
      · rw [replaceAllF]
        simp only [hp, if_false, Bool.false_eq_true]
        rw [ih rest]

end AutoScout

namespace AutoScout

theorem applyReplacements_append (l1 l2 : List (Str × Str)) :
    ∀ st : Str × List Str,
      applyReplacements (l1 ++ l2) st = applyReplacements l2 (applyReplacements l1 st) := by
  induction l1 with
  | nil => intro st; rfl
  | cons pr rest ih =>
    intro st
    obtain ⟨code, corr⟩ := st
    obtain ⟨w, r⟩ := pr
    by_cases hw : w <:+: code
    · simp [applyReplacements, hw, ih]
    · simp [applyReplacements, hw, ih]

theorem applyReplacements_corr_mono :
    ∀ (l : List (Str × Str)) (st : Str × List Str) (e : Str),
      e ∈ st.2 → e ∈ (applyReplacements l st).2 := by
  intro l
  induction l with
  | nil => intro st e he; exact he
  | cons pr rest ih =>
    intro st e he
    obtain ⟨code, corr⟩ := st
    obtain ⟨w, r⟩ := pr
    by_cases hw : w <:+: code
    · have := ih (replaceAll w r code, corr ++ [codeFixEntry w r]) e
        (List.mem_append_left _ he)
      simpa [applyReplacements, hw] using this
    · simpa [applyReplacements, hw] using ih (code, corr) e he

/-- The replacements pass preserves occurrences of a string `t` that none
of the replacement keys can overlap. -/
theorem applyReplacements_keeps_infix (t : Str) :
    ∀ (l : List (Str × Str)) (st : Str × List Str),
      (∀ pr ∈ l, NoCross pr.1 t) → t <:+: st.1 → t <:+: (applyReplacements l st).1 := by
  intro l
  induction l with
  | nil => intro st _ h; exact h
  | cons pr rest ih =>
    intro st hNC h
    obtain ⟨code, corr⟩ := st
    obtain ⟨w, r⟩ := pr
    have hrest : ∀ pr ∈ rest, NoCross pr.1 t :=
      fun pr hp => hNC pr (List.mem_cons_of_mem _ hp)
    by_cases hw : w <:+: code
    · have hkeep : t <:+: replaceAll w r code :=
        replaceAll_keeps_infix w r t code (hNC (w, r) (List.mem_cons_self _ _)) h
      have := ih (replaceAll w r code, corr ++ [codeFixEntry w r]) hrest hkeep
      simpa [applyReplacements, hw] using this
    · simpa [applyReplacements, hw] using ih (code, corr) hrest h

theorem applyReplacements_single (w r code : Str) (corr : List Str) (h : w <:+: code) :
    applyReplacements [(w, r)] (code, corr)
      = (replaceAll w r code, corr ++ [codeFixEntry w r]) := by
  simp [applyReplacements, h]

/-- The first six replacement keys cannot overlap an occurrence of
`df.plot()` in any string. -/
theorem repl6_nocross : ∀ pr ∈ replacements.take 6, NoCross pr.1 (S "df.plot()") := by
  decide

/-- The replacements table is its first six entries followed by the
identity entry for `df.plot()`. -/
theorem replacements_decomp :
    replacements = replacements.take 6 ++ [(S "df.plot()", S "df.plot()")] := by
  decide

/-- C10.  The corrections list of `auto_fix_plot_code` is never empty:
its last entry is always the `autopep8` success entry or the
formatting-failure entry, even for code needing no change; code containing
`df.plot()` always receives a `Code fix` log entry although the configured
replacement for that key is the identity, which changes nothing. -/
theorem claim_C10_corrections_nonempty (fmt : Str → Except Str Str)
    (df : DataFrame) (code : Str) :
    ((auto_fix_plot_code fmt df code).2 ≠ []
      ∧ ∃ e, (auto_fix_plot_code fmt df code).2.getLast? = some e
          ∧ (e = S "Code auto-formatted with autopep8"
              ∨ ∃ m, e = S "Auto-formatting failed: " ++ m))
    ∧ (S "df.plot()" <:+: code →
        codeFixEntry (S "df.plot()") (S "df.plot()") ∈ (auto_fix_plot_code fmt df code).2)
    ∧ (∀ s, replaceAll (S "df.plot()") (S "df.plot()") s = s) := by
  refine ⟨?_, ?_, fun s => replaceAllF_self (S "df.plot()") (s.length + 1) s⟩
  · unfold auto_fix_plot_code
    cases fmt (colStage df code).1 with
    | ok c =>
      refine ⟨by simp, S "Code auto-formatted with autopep8", ?_, Or.inl rfl⟩
      exact List.getLast?_concat _
    | error e =>
      refine ⟨by simp, S "Auto-formatting failed: " ++ e, ?_, Or.inr ⟨e, rfl⟩⟩
      exact List.getLast?_concat _
  · intro hin
    have h6 : S "df.plot()" <:+: (applyReplacements (replacements.take 6) (code, [])).1 :=
      applyReplacements_keeps_infix (S "df.plot()") (replacements.take 6)
        (code, []) repl6_nocross hin
    have hmem : codeFixEntry (S "df.plot()") (S "df.plot()") ∈ (replStage code).2 := by
      unfold replStage
      rw [replacements_decomp, applyReplacements_append]
      have hpair : applyReplacements (replacements.take 6) (code, [])
          = ((applyReplacements (replacements.take 6) (code, [])).1,
             (applyReplacements (replacements.take 6) (code, [])).2) := rfl
      rw [hpair, applyReplacements_single _ _ _ _ h6]
      exact List.mem_append_right _ (List.mem_singleton.mpr rfl)
    have hcol : codeFixEntry (S "df.plot()") (S "df.plot()") ∈ (colStage df code).2 := by
      unfold colStage
      have hpair : replStage code = ((replStage code).1, (replStage code).2) := rfl
      rw [hpair]
      exact colFixLoop_corr_mono (keys df) _ (replStage code).1 (replStage code).2 _ hmem
    unfold auto_fix_plot_code
    cases fmt (colStage df code).1 with
    | ok c => exact List.mem_append_left _ hcol
    | error e => exact List.mem_append_left _ hcol

/-- C10 witness: the concrete code `df.plot()` (which needs no change) on
the empty table with the identity formatter. -/
theorem claim_C10_witness :
    codeFixEntry (S "df.plot()") (S "df.plot()")
      ∈ (auto_fix_plot_code okFmt [] (S "df.plot()")).2 :=
  (claim_C10_corrections_nonempty okFmt [] (S "df.plot()")).2.1 (by decide)

end AutoScout

namespace AutoScout

/-- Soundness of the scan behind `text.find`: a hit is a real occurrence
and the earliest one at or after the start position. -/
theorem strFindF_some_spec (m s : Str) :
    ∀ (fuel i j : Nat), strFindF m s fuel i = some j →
      m <+: s.drop j ∧ i ≤ j ∧ ∀ k, i ≤ k → k < j → ¬ m <+: s.drop k := by
  intro fuel
  induction fuel with
  | zero => intro i j h; simp [strFindF] at h
  | succ fuel ih =>
    intro i j h
    by_cases hp : m.isPrefixOf (s.drop i) = true
    · have hij : i = j := by simpa [strFindF, hp] using h
      subst hij
      exact ⟨List.isPrefixOf_iff_prefix.mp hp, Nat.le_refl i,
        fun k hk1 hk2 => absurd (Nat.lt_of_le_of_lt hk1 hk2) (Nat.lt_irrefl i)⟩
    · by_cases hlt : i < s.length
      · have hrec : strFindF m s fuel (i + 1) = some j := by
          simpa [strFindF, hp, hlt] using h
        obtain ⟨h1, h2, h3⟩ := ih (i + 1) j hrec
        refine ⟨h1, Nat.le_of_succ_le h2, ?_⟩
        intro k hk1 hk2
        rcases Nat.eq_or_lt_of_le hk1 with he | hlt2
        · intro hcon
          rw [← he] at hcon
          exact hp (List.isPrefixOf_iff_prefix.mpr hcon)
        · exact h3 k hlt2 hk2
      · simp [strFindF, hp, hlt] at h

/-- Completeness of the scan behind `text.find`: a failed scan with
sufficient fuel means no occurrence at or after the start position. -/
theorem strFindF_none_spec (m s : Str) (hm : m ≠ []) :
    ∀ (fuel i : Nat), s.length + 1 ≤ fuel + i → strFindF m s fuel i = none →
      ∀ k, i ≤ k → ¬ m <+: s.drop k := by
  intro fuel
  induction fuel with
  | zero =>
    intro i hfuel _ k hk hcon
    have hklen : s.length ≤ k := by omega
    rw [List.drop_eq_nil_of_le hklen] at hcon
    exact hm (List.prefix_nil.mp hcon)
  | succ fuel ih =>
    intro i hfuel h k hk hcon
    by_cases hp : m.isPrefixOf (s.drop i) = true
    · simp [strFindF, hp] at h
    · by_cases hlt : i < s.length
      · have hrec : strFindF m s fuel (i + 1) = none := by
          simpa [strFindF, hp, hlt] using h
        rcases Nat.eq_or_lt_of_le hk with he | hlt2
        · rw [← he] at hcon
          exact hp (List.isPrefixOf_iff_prefix.mpr hcon)
        · exact ih (i + 1) (by omega) hrec k hlt2 hcon
      · have hklen : s.length ≤ k := by omega
        rw [List.drop_eq_nil_of_le hklen] at hcon
        exact hm (List.prefix_nil.mp hcon)

/-- `text.find(m)` returns the first occurrence when one exists. -/
theorem strFind_eq_some_of (m t : Str) (hm : m ≠ []) (i : Nat)
    (hpre : m <+: t.drop i) (hmin : ∀ j, j < i → ¬ m <+: t.drop j) :
    strFind m t = some i := by
  cases h2 : strFind m t with
  | none =>
    exact absurd hpre
      (strFindF_none_spec m t hm (t.length + 1) 0 (by omega) h2 i (Nat.zero_le i))
  | some j =>
    obtain ⟨hpj, -, hminj⟩ := strFindF_some_spec m t (t.length + 1) 0 j h2
    rcases Nat.lt_trichotomy i j with hlt | he | hlt
    · exact absurd hpre (hminj i (Nat.zero_le i) hlt)
    · rw [he]
    · exact absurd hpj (hmin j hlt)

/-- `text.find(m)` returns `-1` exactly when there is no occurrence. -/
theorem strFind_eq_none_of (m t : Str) (hm : m ≠ [])
    (h : ∀ j, j < t.length → ¬ m <+: t.drop j) : strFind m t = none := by
  cases h2 : strFind m t with
  | none => rfl
  | some j =>
    obtain ⟨hpj, -, -⟩ := strFindF_some_spec m t (t.length + 1) 0 j h2
    by_cases hj : j < t.length
    · exact absurd hpj (h j hj)
    · rw [List.drop_eq_nil_of_le (by omega)] at hpj
      exact absurd (List.prefix_nil.mp hpj) hm

/-- C6.  `extract_code_blocks` with the marker present returns exactly
the trimmed, non-whitespace python-tagged fenced blocks of the text from
the first marker occurrence on; with no marker occurrence it scans the
whole text the same way; on the spec's concrete inputs it yields `["X"]`,
the single legacy block, and the empty sequence respectively. -/
theorem claim_C6_extract_code_blocks (t : Str) :
    (∀ i, markerS <+: t.drop i → (∀ j, j < i → ¬ markerS <+: t.drop j) →
        extract_code_blocks t = stripBlocks (findFenced (t.drop i)))
      ∧ ((∀ j, j < t.length → ¬ markerS <+: t.drop j) →
          extract_code_blocks t = stripBlocks (findFenced t))
      ∧ extract_code_blocks
          (S "prose ## SUGGESTED VISUALIZATIONS \n```python\nX\n```") = [S "X"]
      ∧ extract_code_blocks (S "no marker ```python\ny = 2\n```") = [S "y = 2"]
      ∧ extract_code_blocks
          (S "prose ## SUGGESTED VISUALIZATIONS \n```python\n  \n```") = [] := by
  have hm : markerS ≠ [] := by decide
  refine ⟨?_, ?_, by decide, by decide, by decide⟩
  · intro i hpre hmin
    unfold extract_code_blocks
    rw [strFind_eq_some_of markerS t hm i hpre hmin]
  · intro hnone
    unfold extract_code_blocks
    rw [strFind_eq_none_of markerS t hm hnone]

/-- C6 witness: the marker branch at the concrete marker position 6, and
the legacy branch on a marker-free text. -/
theorem claim_C6_witness :
    extract_code_blocks (S "prose ## SUGGESTED VISUALIZATIONS \n```python\nX\n```")
        = stripBlocks (findFenced
            ((S "prose ## SUGGESTED VISUALIZATIONS \n```python\nX\n```").drop 6))
      ∧ extract_code_blocks (S "no marker ```python\ny = 2\n```")
          = stripBlocks (findFenced (S "no marker ```python\ny = 2\n```")) := by
  constructor
  · exact (claim_C6_extract_code_blocks _).1 6 (by decide) (by decide)
  · exact (claim_C6_extract_code_blocks _).2.1 (by decide)

end AutoScout
